import Mathlib

/- Verification of the fine-grained reactivity engine in src/ignore.ts.

   The source keeps three pieces of global state: `depsMap` (a Map from
   observed object to a Map from property key to a Set of effects),
   `currentEffect` (the currently running effect or null), and
   `effectsStack` (the stack of active effects).  `createEffect` wraps a
   computation in a guard/try/finally protocol and runs it once;
   `reactive` replaces an object's own enumerable keys with get/set
   accessors closing over a value; `track` records the current effect as
   a subscriber of a coordinate; `trigger` snapshots the subscriber set
   of a coordinate and invokes each subscriber.

   The shallow embedding below represents JS Maps and Sets as insertion
   ordered association lists / duplicate-free lists, effects as identifiers
   whose wrapped computations are given by a finite environment mapping
   effect ids to a list of primitive operations (property read, property
   write of a value, throw), and the whole engine as a fuel indexed
   interpreter `run` over an explicit state `RState`.  An event log in the
   state records every wrapper invocation and every start of a wrapped
   computation, so that claims about "is invoked" / "re-runs" become
   claims about event counts.  A second, static model (`JSObject`,
   `reactive`) embeds the property-definition behaviour of `reactive`
   including the enumerability attributes used by Object.keys. -/

/- Identifiers: effects compare by reference identity in the source; we
   model identity by a natural number.  Observed objects likewise.  Keys
   produced by Object.keys are strings. -/
abbrev EffectId : Type := Nat

abbrev ObjId : Type := Nat

abbrev Key : Type := String

/-- Runtime values; `obj i` is a reference to object `i`, so decidable
equality on `Value` is exactly JS strict equality (===) on the modelled
values (reference equality on objects, value equality on primitives). -/
inductive Value : Type where
  | undef : Value
  | num : Int → Value
  | str : String → Value
  | obj : Nat → Value
deriving DecidableEq, Repr

/-- Primitive operations a wrapped computation can perform on observed
objects: read an intercepted property (the get accessor: track, then
return the stored value), write a value to an intercepted property (the
set accessor), or throw an exception. -/
inductive Op : Type where
  | read : ObjId → Key → Op
  | write : ObjId → Key → Value → Op
  | throwErr : Op
deriving DecidableEq, Repr

/-- Instrumentation events: `invoke e` is logged whenever effect `e`'s
wrapper function is called; `run e` is logged when the guard passes and
the wrapped computation actually starts executing (i.e. `e` becomes the
current effect). -/
inductive Event : Type where
  | invoke : EffectId → Event
  | run : EffectId → Event
deriving DecidableEq, Repr

/-- Association-list lookup, modelling JS `Map.get`. -/
def amapFind {α β : Type} [DecidableEq α] : List (α × β) → α → Option β
  | [], _ => none
  | (a0, b0) :: t, a => if a0 = a then some b0 else amapFind t a

/-- Association-list update, modelling JS `Map.set`: replaces in place if
the key is present (preserving insertion order), otherwise appends. -/
def amapSet {α β : Type} [DecidableEq α] : List (α × β) → α → β → List (α × β)
  | [], a, b => [(a, b)]
  | (a0, b0) :: t, a, b => if a0 = a then (a, b) :: t else (a0, b0) :: amapSet t a b

/-- Duplicate-free insertion, modelling JS `Set.add`: a no-op when the
element is already present, otherwise appends (JS sets iterate in
insertion order). -/
def setAdd {α : Type} [DecidableEq α] (l : List α) (x : α) : List α :=
  if x ∈ l then l else l ++ [x]

/-- The global mutable state of the engine, plus the per-key closure
variables of all reactive objects (`store`) and the instrumentation log.

  depsMap       : the registry Map(object, Map(key, Set(effect)))
  currentEffect : the currently active effect, or null
  effectsStack  : the stack of active effects (top is the last element,
                  matching push/pop on a JS array)
  store         : the `value` closure variable of each intercepted
                  accessor pair, keyed by (object, key)
  log           : instrumentation, records invocations and runs. -/
structure RState : Type where
  depsMap : List (ObjId × List (Key × List EffectId))
  currentEffect : Option EffectId
  effectsStack : List EffectId
  store : List ((ObjId × Key) × Value)
  log : List Event
deriving DecidableEq, Repr

/-- Result of an execution step: normal completion, an exception
propagating out of it, or fuel exhaustion of the interpreter. -/
inductive Res : Type where
  | ok : RState → Res
  | thrown : RState → Res
  | fuelOut : Res
deriving DecidableEq, Repr

/-- The computation wrapped by each effect: a finite table from effect id
to its list of operations (effects absent from the table do nothing). -/
abbrev Env : Type := List (EffectId × List Op)

/-- Computation of effect `e` in environment `env`. -/
def envComp (env : Env) (e : EffectId) : List Op :=
  (amapFind env e).getD []

/-- Current stored value of coordinate (o, k): the accessor's closure
variable. -/
def getStore (s : RState) (o : ObjId) (k : Key) : Value :=
  (amapFind s.store (o, k)).getD Value.undef

/-- Update the accessor closure variable of coordinate (o, k). -/
def setStore (s : RState) (o : ObjId) (k : Key) (v : Value) : RState :=
  { s with store := amapSet s.store (o, k) v }

/-- Translation of `track(target, key)` from src/ignore.ts: a no-op when
there is no current effect; otherwise ensure a per-target map and a
per-key set exist and add the current effect to the set. -/
def track (s : RState) (target : ObjId) (key : Key) : RState :=
  match s.currentEffect with
  | none => s
  | some ce =>
    let deps := (amapFind s.depsMap target).getD []
    let dep := (amapFind deps key).getD []
    { s with depsMap := amapSet s.depsMap target (amapSet deps key (setAdd dep ce)) }

/-- Subscriber set of coordinate (o, k), or [] when the target has no
registry entry or the key has no subscriber set. -/
def depSetD (s : RState) (o : ObjId) (k : Key) : List EffectId :=
  match amapFind s.depsMap o with
  | none => []
  | some deps =>
    match amapFind deps k with
    | none => []
    | some dep => dep

/-- State change performed by the wrapper before calling the wrapped
computation: set currentEffect, push onto effectsStack, and log the
invocation and the start of the run. -/
def enterState (s : RState) (e : EffectId) : RState :=
  { s with currentEffect := some e,
           effectsStack := s.effectsStack ++ [e],
           log := s.log ++ [Event.invoke e, Event.run e] }

/-- The `finally` block of the wrapper: pop the effect off the stack and
restore currentEffect to the new top of stack, or null if the stack is
empty (`effectsStack[effectsStack.length - 1] || null`). -/
def unwind (s : RState) : RState :=
  { s with effectsStack := s.effectsStack.dropLast,
           currentEffect := s.effectsStack.dropLast.getLast? }

/-- The mutually recursive entry points of the engine, packed into one
type so the interpreter is a single fuel-indexed function:
  eff e     : invoke effect e's wrapper (createEffect's inner `effect`)
  ops l     : execute the remaining operations of a wrapped computation
  op1 op    : execute one operation (get accessor / set accessor / throw)
  trigger o k : `trigger(target, key)` from src/ignore.ts
  each l    : the forEach loop of `trigger` over a snapshot. -/
inductive Call : Type where
  | eff : EffectId → Call
  | ops : List Op → Call
  | op1 : Op → Call
  | trigger : ObjId → Key → Call
  | each : List EffectId → Call
deriving DecidableEq, Repr

/-- Fuel-indexed interpreter for the engine.  Each case is a direct
translation of src/ignore.ts:

  eff e: if the effect is already in effectsStack, skip the run entirely
  (only the invocation is observable); otherwise set currentEffect, push,
  run the computation, and in a finally block pop and restore
  currentEffect, re-raising a thrown exception after the cleanup.

  op1 (read o k): the get accessor calls track(target, key) and returns
  the stored value.

  op1 (write o k v): the set accessor compares the new value to the
  stored value with strict inequality; if different it updates the stored
  value then calls trigger(target, key), otherwise it does nothing.

  trigger o k: return if the target has no registry entry or the key has
  no subscriber set; otherwise snapshot the subscriber set (the list
  `dep` read here is by construction unaffected by later updates of
  depsMap) and invoke every effect in the snapshot in order; an exception
  from one effect propagates and aborts the rest of the pass, as with
  Set.forEach. -/
def run (env : Env) : Nat → Call → RState → Res
  | 0, _, _ => Res.fuelOut
  | fuel + 1, c, s =>
    match c with
    | Call.eff e =>
      if e ∈ s.effectsStack then Res.ok { s with log := s.log ++ [Event.invoke e] }
      else
        match run env fuel (Call.ops (envComp env e)) (enterState s e) with
        | Res.ok s2 => Res.ok (unwind s2)
        | Res.thrown s2 => Res.thrown (unwind s2)
        | Res.fuelOut => Res.fuelOut
    | Call.ops [] => Res.ok s
    | Call.ops (op :: rest) =>
      match run env fuel (Call.op1 op) s with
      | Res.ok s1 => run env fuel (Call.ops rest) s1
      | r => r
    | Call.op1 (Op.read o k) => Res.ok (track s o k)
    | Call.op1 (Op.write o k v) =>
      if v = getStore s o k then Res.ok s
      else run env fuel (Call.trigger o k) (setStore s o k v)
    | Call.op1 Op.throwErr => Res.thrown s
    | Call.trigger o k =>
      match amapFind s.depsMap o with
      | none => Res.ok s
      | some deps =>
        match amapFind deps k with
        | none => Res.ok s
        | some dep => run env fuel (Call.each dep) s
    | Call.each [] => Res.ok s
    | Call.each (e :: rest) =>
      match run env fuel (Call.eff e) s with
      | Res.ok s1 => run env fuel (Call.each rest) s1
      | r => r

/-- Registration entry point: `createEffect(fn)` defines the wrapper and
immediately invokes it once. -/
def createEffect (env : Env) (fuel : Nat) (e : EffectId) (s : RState) : Res :=
  run env fuel (Call.eff e) s

/-- The sequence of track calls performed by a list of operations (the
effect of a purely reading computation on the registry). -/
def trackAll : RState → List Op → RState
  | s, [] => s
  | s, Op.read o k :: rest => trackAll (track s o k) rest
  | s, _ :: rest => trackAll s rest

/-- Events logged by one trigger pass over a snapshot whose effects all
run (guard passes) and whose computations log nothing themselves. -/
def passLog (l : List EffectId) : List Event :=
  l.flatMap (fun e => [Event.invoke e, Event.run e])

/-- Recognizer for the get-accessor operation. -/
def Op.isRead : Op → Bool
  | Op.read _ _ => true
  | _ => false

/-- A computation consisting only of property reads (it never writes and
never throws, hence triggers no cascade). -/
def allReads (l : List Op) : Prop := ∀ op ∈ l, op.isRead = true

/-- An environment all of whose effects have purely reading
computations. -/
def ReadOnlyEnv (env : Env) : Prop := ∀ p ∈ env, allReads p.2

/-- Well-formedness of the execution context: currentEffect is the top of
effectsStack (or null when the stack is empty).  This is the invariant
the source maintains by always assigning
`currentEffect = effectsStack[effectsStack.length - 1] || null`. -/
def WF (s : RState) : Prop := s.currentEffect = s.effectsStack.getLast?

/-- Every subscriber set in the registry is duplicate free (JS Set
semantics). -/
def NodupD (s : RState) : Prop := ∀ p ∈ s.depsMap, ∀ q ∈ p.2, List.Nodup q.2

/-- The log accounts for the registry and the execution context: every
effect registered anywhere in depsMap, the current effect, and every
effect on the stack has started a run at some point.  This holds in every
state reachable from the pristine initial state, because track only ever
adds the current effect. -/
def Recorded (s : RState) : Prop :=
  (∀ p ∈ s.depsMap, ∀ q ∈ p.2, ∀ e ∈ q.2, Event.run e ∈ s.log) ∧
  (∀ e ∈ s.currentEffect.toList, Event.run e ∈ s.log) ∧
  (∀ e ∈ s.effectsStack, Event.run e ∈ s.log)

/-- Facts preserved by every execution (ok or thrown): the log only
grows, registry membership only grows, duplicate-freeness and
recordedness are preserved, and under well-formedness the stack and the
current effect are restored on completion. -/
structure Pres (s s' : RState) : Prop where
  log_mono : ∃ d, s'.log = s.log ++ d
  dep_mono : ∀ o k e, e ∈ depSetD s o k → e ∈ depSetD s' o k
  nodup : NodupD s → NodupD s'
  recorded : Recorded s → Recorded s'
  wf : WF s → s'.effectsStack = s.effectsStack ∧ s'.currentEffect = s.currentEffect ∧ WF s'

/-- Side condition for the invocation-counting lemma: the call only ever
invokes effects that are recorded as having run (snapshots handed to the
forEach loop, and the effect of a direct wrapper call). -/
def CallOK (s : RState) : Call → Prop
  | Call.each l => ∀ x ∈ l, Event.run x ∈ s.log
  | Call.eff x => Event.run x ∈ s.log
  | _ => True

/- Static model of `reactive` itself.  A JS property carries a value and
   the attribute flags relevant here; `intercepted` marks the accessor
   pairs installed by `reactive` (get/set closing over a value).  A JS
   object is its identity plus its own properties in insertion order. -/

/-- One own property of a JS object.  `enumerable` and `configurable` are
the attribute flags; Object.defineProperty leaves them `false` when the
descriptor omits them, while plain assignment creates them `true`.
`intercepted` marks the get/set accessor pair installed by `reactive`. -/
structure JSProp : Type where
  value : Value
  enumerable : Bool
  configurable : Bool
  intercepted : Bool
deriving DecidableEq, Repr

/-- A JS object: reference identity plus own properties in insertion
order. -/
structure JSObject : Type where
  id : Nat
  props : List (Key × JSProp)
deriving DecidableEq, Repr

/-- Object.keys: the object's own enumerable keys, in order. -/
def objectKeys (obj : JSObject) : List Key :=
  (obj.props.filter (fun p => p.2.enumerable)).map Prod.fst

/-- The keys of an object that carry an accessor pair installed by
`reactive`. -/
def interceptedKeys (obj : JSObject) : List Key :=
  (obj.props.filter (fun p => p.2.intercepted)).map Prod.fst

/-- The accessor property `reactive` installs for key `k`: it closes over
`value = obj[key]` (the value is taken verbatim, with no recursion into
nested objects), and since the descriptor passed to Object.defineProperty
contains only `get` and `set`, the property is non-enumerable and
non-configurable. -/
def interceptProp (obj : JSObject) (k : Key) : JSProp :=
  { value := ((amapFind obj.props k).map JSProp.value).getD Value.undef,
    enumerable := false,
    configurable := false,
    intercepted := true }

/-- Translation of `reactive(obj)` from src/ignore.ts: read
`Object.keys(obj)`, create a fresh empty object, and define an accessor
pair on it for each key; the input object is not modified (the embedding
is pure, so this is definitional) and nothing else is copied. -/
def reactive (freshId : Nat) (obj : JSObject) : JSObject :=
  { id := freshId,
    props := (objectKeys obj).map (fun k => (k, interceptProp obj k)) }

/-- A plain data object as produced by an object literal: every own
property is an enumerable data property, none is intercepted. -/
def PlainObject (obj : JSObject) : Prop :=
  ∀ p ∈ obj.props, p.2.enumerable = true ∧ p.2.intercepted = false

/-- The value lookup on the model object (what reading the property
returns, ignoring tracking). -/
def propValue (obj : JSObject) (k : Key) : Option Value :=
  (amapFind obj.props k).map JSProp.value

/-- Adding a property to an object later, by plain assignment to a key
the object does not have: JS creates an enumerable, configurable data
property; no accessor pair is installed. -/
def addProp (obj : JSObject) (k : Key) (v : Value) : JSObject :=
  { obj with props := obj.props ++
      [(k, { value := v, enumerable := true, configurable := true, intercepted := false })] }


/- Decidability of the predicates above, so that concrete instances can be
   checked by evaluation. -/

instance (l : List Op) : Decidable (allReads l) := by
  unfold allReads
  infer_instance

instance (env : Env) : Decidable (ReadOnlyEnv env) := by
  unfold ReadOnlyEnv
  infer_instance

instance (s : RState) : Decidable (WF s) := by
  unfold WF
  infer_instance

instance (s : RState) : Decidable (NodupD s) := by
  unfold NodupD
  infer_instance

instance (s : RState) : Decidable (Recorded s) := by
  unfold Recorded
  infer_instance

instance (obj : JSObject) : Decidable (PlainObject obj) := by
  unfold PlainObject
  infer_instance

/- Concrete scenarios used to instantiate the theorems below. -/

/-- Environment with one effect (id 0) whose computation reads property
"x" of object 0. -/
def envR : Env := [(0, [Op.read 0 "x"])]

/-- Environment with one effect (id 0) whose computation throws. -/
def envT : Env := [(0, [Op.throwErr])]

/-- Environment for the subscription scenarios: effect 1 reads (0, "x"). -/
def envC5 : Env := [(1, [Op.read 0 "x"])]

/-- Environment with a cascade: effect 1 reads (0, "p"); effect 2 reads
(0, "q") and then writes 7 to (0, "p"). -/
def envC8 : Env := [(1, [Op.read 0 "p"]), (2, [Op.read 0 "q", Op.write 0 "p" (Value.num 7)])]

/-- Read-only environment: effect 1 reads (0, "p"), effect 2 reads
(0, "q"). -/
def envC8ro : Env := [(1, [Op.read 0 "p"]), (2, [Op.read 0 "q"])]

/-- Environment with one effect that reads (0, "p") and then writes 5 to
(0, "q"). -/
def envC9 : Env := [(1, [Op.read 0 "p", Op.write 0 "q" (Value.num 5)])]

/-- Pristine state: empty registry, no current effect, empty stack, one
stored value (0, "x") = 0, empty log. -/
def sInit : RState := ⟨[], none, [], [((0, "x"), Value.num 0)], []⟩

/-- State after effect 0 ran once under envR: it is subscribed to
(0, "x") and its run is on record. -/
def sTracked : RState :=
  ⟨[(0, [("x", [0])])], none, [], [((0, "x"), Value.num 0)], [Event.invoke 0, Event.run 0]⟩

/-- State after additionally writing 1 to (0, "x") under envR: the store
is updated and effect 0 was invoked and ran once more. -/
def sAfterWrite : RState :=
  ⟨[(0, [("x", [0])])], none, [], [((0, "x"), Value.num 1)],
   [Event.invoke 0, Event.run 0, Event.invoke 0, Event.run 0]⟩

/-- A state in which effect 0 is currently executing (it is on the
stack). -/
def sBusy : RState := ⟨[], some 0, [0], [], []⟩

/-- A recorded state where effect 1 is subscribed to (0, "x"). -/
def sC5 : RState :=
  ⟨[(0, [("x", [1])])], none, [], [((0, "x"), Value.num 0)], [Event.invoke 1, Event.run 1]⟩

/-- sC5 after a trigger of (0, "x"): effect 1 was invoked and ran once
more (store untouched by a pure trigger). -/
def sC5trig : RState :=
  ⟨[(0, [("x", [1])])], none, [], [((0, "x"), Value.num 0)],
   [Event.invoke 1, Event.run 1, Event.invoke 1, Event.run 1]⟩

/-- sC5 after writing 1 to (0, "x"): store updated, effect 1 re-ran. -/
def sC5w : RState :=
  ⟨[(0, [("x", [1])])], none, [], [((0, "x"), Value.num 1)],
   [Event.invoke 1, Event.run 1, Event.invoke 1, Event.run 1]⟩

/-- Recorded state for the cascade counterexample: effect 1 subscribed to
(0, "p"), effect 2 subscribed to (0, "q"), both values 0. -/
def sC8 : RState :=
  ⟨[(0, [("p", [1]), ("q", [2])])], none, [],
   [((0, "p"), Value.num 0), ((0, "q"), Value.num 0)],
   [Event.invoke 1, Event.run 1, Event.invoke 2, Event.run 2]⟩

/-- sC8 after writing 1 to (0, "q") under envC8: effect 2 ran, its write
of 7 to (0, "p") cascaded and re-ran effect 1. -/
def sC8after : RState :=
  ⟨[(0, [("p", [1]), ("q", [2])])], none, [],
   [((0, "p"), Value.num 7), ((0, "q"), Value.num 1)],
   [Event.invoke 1, Event.run 1, Event.invoke 2, Event.run 2,
    Event.invoke 2, Event.run 2, Event.invoke 1, Event.run 1]⟩

/-- Idle state with the same registry as sC8 but an empty log, used with
the read-only environment envC8ro. -/
def sC8ro : RState :=
  ⟨[(0, [("p", [1]), ("q", [2])])], none, [],
   [((0, "p"), Value.num 0), ((0, "q"), Value.num 0)], []⟩

/-- sC8ro after writing 1 to (0, "q") under envC8ro: only effect 2 ran. -/
def sC8roW : RState :=
  ⟨[(0, [("p", [1]), ("q", [2])])], none, [],
   [((0, "p"), Value.num 0), ((0, "q"), Value.num 1)], [Event.invoke 2, Event.run 2]⟩

/-- sC8ro after writing 1 to (0, "p") under envC8ro: only effect 1 ran. -/
def sC8roP : RState :=
  ⟨[(0, [("p", [1]), ("q", [2])])], none, [],
   [((0, "p"), Value.num 1), ((0, "q"), Value.num 0)], [Event.invoke 1, Event.run 1]⟩

/-- Recorded state for the frame counterexample: effect 1 (whose
computation reads (0, "p") and writes 5 to (0, "q")) is subscribed to
(0, "p"); both stored values are 0.  Reachable in the source by creating
the effect (which sets q to 5) and then assigning 0 to q from outside. -/
def sC9 : RState :=
  ⟨[(0, [("p", [1])])], none, [],
   [((0, "p"), Value.num 0), ((0, "q"), Value.num 0)], [Event.invoke 1, Event.run 1]⟩

/-- sC9 after writing 1 to (0, "p") under envC9: the re-run of effect 1
wrote 5 into (0, "q"). -/
def sC9after : RState :=
  ⟨[(0, [("p", [1])])], none, [],
   [((0, "p"), Value.num 1), ((0, "q"), Value.num 5)],
   [Event.invoke 1, Event.run 1, Event.invoke 1, Event.run 1]⟩

/-- A plain object literal with a single data property count = 0. -/
def plainCount : JSObject := ⟨0, [("count", ⟨Value.num 0, true, true, false⟩)]⟩

/- Equation lemmas for the interpreter, one per source construct. -/

theorem run_zero (env : Env) (c : Call) (s : RState) :
    run env 0 c s = Res.fuelOut := rfl

theorem run_eff (env : Env) (fuel : Nat) (e : EffectId) (s : RState) :
    run env (fuel + 1) (Call.eff e) s =
      (if e ∈ s.effectsStack then Res.ok { s with log := s.log ++ [Event.invoke e] }
       else
         match run env fuel (Call.ops (envComp env e)) (enterState s e) with
         | Res.ok s2 => Res.ok (unwind s2)
         | Res.thrown s2 => Res.thrown (unwind s2)
         | Res.fuelOut => Res.fuelOut) := rfl

theorem run_ops_nil (env : Env) (fuel : Nat) (s : RState) :
    run env (fuel + 1) (Call.ops []) s = Res.ok s := rfl

theorem run_ops_cons (env : Env) (fuel : Nat) (op : Op) (rest : List Op) (s : RState) :
    run env (fuel + 1) (Call.ops (op :: rest)) s =
      (match run env fuel (Call.op1 op) s with
       | Res.ok s1 => run env fuel (Call.ops rest) s1
       | r => r) := rfl

theorem run_read (env : Env) (fuel : Nat) (o : ObjId) (k : Key) (s : RState) :
    run env (fuel + 1) (Call.op1 (Op.read o k)) s = Res.ok (track s o k) := rfl

theorem run_write (env : Env) (fuel : Nat) (o : ObjId) (k : Key) (v : Value) (s : RState) :
    run env (fuel + 1) (Call.op1 (Op.write o k v)) s =
      (if v = getStore s o k then Res.ok s
       else run env fuel (Call.trigger o k) (setStore s o k v)) := rfl

theorem run_throw (env : Env) (fuel : Nat) (s : RState) :
    run env (fuel + 1) (Call.op1 Op.throwErr) s = Res.thrown s := rfl

theorem run_trigger_eq (env : Env) (fuel : Nat) (o : ObjId) (k : Key) (s : RState) :
    run env (fuel + 1) (Call.trigger o k) s =
      (match amapFind s.depsMap o with
       | none => Res.ok s
       | some deps =>
         match amapFind deps k with
         | none => Res.ok s
         | some dep => run env fuel (Call.each dep) s) := rfl

theorem run_each_nil (env : Env) (fuel : Nat) (s : RState) :
    run env (fuel + 1) (Call.each []) s = Res.ok s := rfl

theorem run_each_cons (env : Env) (fuel : Nat) (e : EffectId) (rest : List EffectId) (s : RState) :
    run env (fuel + 1) (Call.each (e :: rest)) s =
      (match run env fuel (Call.eff e) s with
       | Res.ok s1 => run env fuel (Call.each rest) s1
       | r => r) := rfl

/- Association list and set-insertion lemmas. -/

theorem amapFind_set_self {α β : Type} [DecidableEq α] (m : List (α × β)) (a : α) (b : β) :
    amapFind (amapSet m a b) a = some b := by
  induction m with
  | nil => simp [amapFind, amapSet]
  | cons p t ih =>
    obtain ⟨a0, b0⟩ := p
    by_cases h : a0 = a <;> simp [amapFind, amapSet, h, ih]

theorem amapFind_set_ne {α β : Type} [DecidableEq α] (m : List (α × β)) (a a' : α) (b : β)
    (h : a' ≠ a) : amapFind (amapSet m a b) a' = amapFind m a' := by
  induction m with
  | nil => simp [amapFind, amapSet, Ne.symm h]
  | cons p t ih =>
    obtain ⟨a0, b0⟩ := p
    by_cases h0 : a0 = a
    · subst h0
      simp [amapFind, amapSet, Ne.symm h]
    · simp [amapFind, amapSet, h0, ih]

theorem mem_amapSet {α β : Type} [DecidableEq α] (m : List (α × β)) (a : α) (b : β)
    (p : α × β) (h : p ∈ amapSet m a b) : p = (a, b) ∨ p ∈ m := by
  induction m with
  | nil => simpa [amapSet] using h
  | cons q t ih =>
    obtain ⟨a0, b0⟩ := q
    by_cases h0 : a0 = a
    · simp [amapSet, h0] at h
      rcases h with h | h
      · left; simpa using h
      · right; simp [h]
    · simp [amapSet, h0] at h
      rcases h with h | h
      · right; simp [h]
      · rcases ih h with h1 | h1
        · left; exact h1
        · right; simp [h1]

theorem amapFind_mem {α β : Type} [DecidableEq α] (m : List (α × β)) (a : α) (b : β)
    (h : amapFind m a = some b) : (a, b) ∈ m := by
  induction m with
  | nil => simp [amapFind] at h
  | cons q t ih =>
    obtain ⟨a0, b0⟩ := q
    by_cases h0 : a0 = a
    · subst h0
      simp [amapFind] at h
      simp [h]
    · simp [amapFind, h0] at h
      simp [ih h]

theorem mem_setAdd_iff {α : Type} [DecidableEq α] (l : List α) (x z : α) :
    z ∈ setAdd l x ↔ z ∈ l ∨ z = x := by
  by_cases h : x ∈ l
  · constructor
    · intro hz; simp [setAdd, h] at hz; exact Or.inl hz
    · intro hz
      rcases hz with hz | hz
      · simpa [setAdd, h] using hz
      · subst hz; simp [setAdd, h]
  · simp [setAdd, h]

theorem setAdd_nodup {α : Type} [DecidableEq α] (l : List α) (x : α) (h : l.Nodup) :
    (setAdd l x).Nodup := by
  by_cases hm : x ∈ l
  · simpa [setAdd, hm] using h
  · simp only [setAdd, if_neg hm]
    refine List.Nodup.append h (List.nodup_singleton x) ?_
    intro a ha hax
    simp only [List.mem_singleton] at hax
    subst hax
    exact hm ha

/- Field lemmas for the primitive state transformers. -/

theorem track_store (s : RState) (o : ObjId) (k : Key) : (track s o k).store = s.store := by
  cases hc : s.currentEffect <;> simp [track, hc]

theorem track_log (s : RState) (o : ObjId) (k : Key) : (track s o k).log = s.log := by
  cases hc : s.currentEffect <;> simp [track, hc]

theorem track_stack (s : RState) (o : ObjId) (k : Key) :
    (track s o k).effectsStack = s.effectsStack := by
  cases hc : s.currentEffect <;> simp [track, hc]

theorem track_current (s : RState) (o : ObjId) (k : Key) :
    (track s o k).currentEffect = s.currentEffect := by
  cases hc : s.currentEffect <;> simp [track, hc]

theorem depSetD_eq (s : RState) (o : ObjId) (k : Key) :
    depSetD s o k = (amapFind ((amapFind s.depsMap o).getD []) k).getD [] := by
  unfold depSetD
  rcases hd : amapFind s.depsMap o with _ | deps
  · simp [amapFind]
  · rcases hk : amapFind deps k with _ | dep <;> simp [hk]

theorem depSetD_track_self (s : RState) (o : ObjId) (k : Key) (ce : EffectId)
    (hc : s.currentEffect = some ce) :
    depSetD (track s o k) o k = setAdd (depSetD s o k) ce := by
  simp only [track, hc]
  rw [depSetD_eq]
  simp only [amapFind_set_self, Option.getD_some]
  rw [← depSetD_eq]

theorem depSetD_track_ne (s : RState) (o : ObjId) (k : Key) (a : ObjId) (b : Key)
    (h : a ≠ o ∨ b ≠ k) : depSetD (track s o k) a b = depSetD s a b := by
  cases hc : s.currentEffect with
  | none => simp [track, hc]
  | some ce =>
    simp only [track, hc]
    rw [depSetD_eq, depSetD_eq]
    rcases h with h | h
    · rw [amapFind_set_ne _ _ _ _ h]
    · by_cases ho : a = o
      · subst ho
        simp only [amapFind_set_self, Option.getD_some]
        rw [amapFind_set_ne _ _ _ _ h]
      · rw [amapFind_set_ne _ _ _ _ ho]

theorem track_dep_mono (s : RState) (o : ObjId) (k : Key) (a : ObjId) (b : Key) (e : EffectId)
    (h : e ∈ depSetD s a b) : e ∈ depSetD (track s o k) a b := by
  by_cases hab : a = o ∧ b = k
  · obtain ⟨ha, hb⟩ := hab
    subst ha; subst hb
    cases hc : s.currentEffect with
    | none => simpa [track, hc] using h
    | some ce =>
      rw [depSetD_track_self s a b ce hc, mem_setAdd_iff]
      exact Or.inl h
  · rw [depSetD_track_ne]
    · exact h
    · by_cases ha : a = o
      · exact Or.inr (fun hb => hab ⟨ha, hb⟩)
      · exact Or.inl ha

theorem depSetD_mem_cases (s : RState) (o : ObjId) (k : Key) (e : EffectId)
    (h : e ∈ depSetD s o k) :
    ∃ deps dep, amapFind s.depsMap o = some deps ∧ amapFind deps k = some dep ∧ e ∈ dep := by
  rw [depSetD_eq] at h
  rcases hd : amapFind s.depsMap o with _ | deps
  · rw [hd] at h
    simp [amapFind] at h
  · rw [hd] at h
    simp only [Option.getD_some] at h
    rcases hk : amapFind deps k with _ | dep
    · rw [hk] at h
      simp at h
    · rw [hk] at h
      simp only [Option.getD_some] at h
      exact ⟨deps, dep, rfl, hk, h⟩

theorem nodupD_depSetD (s : RState) (h : NodupD s) (o : ObjId) (k : Key) :
    (depSetD s o k).Nodup := by
  rw [depSetD_eq]
  rcases hd : amapFind s.depsMap o with _ | deps
  · simp [amapFind]
  · simp only [Option.getD_some]
    rcases hk : amapFind deps k with _ | dep
    · simp
    · simp only [Option.getD_some]
      exact h _ (amapFind_mem _ _ _ hd) _ (amapFind_mem _ _ _ hk)

theorem recorded_depSetD (s : RState) (h : Recorded s) (o : ObjId) (k : Key) (e : EffectId)
    (he : e ∈ depSetD s o k) : Event.run e ∈ s.log := by
  obtain ⟨deps, dep, hd, hk, hm⟩ := depSetD_mem_cases s o k e he
  exact h.1 _ (amapFind_mem _ _ _ hd) _ (amapFind_mem _ _ _ hk) _ hm

theorem track_mem_cases (s : RState) (o : ObjId) (k : Key) (p : ObjId × List (Key × List EffectId))
    (hp : p ∈ (track s o k).depsMap) (q : Key × List EffectId) (hq : q ∈ p.2)
    (e : EffectId) (he : e ∈ q.2) :
    (∃ p' ∈ s.depsMap, ∃ q' ∈ p'.2, e ∈ q'.2) ∨ s.currentEffect = some e := by
  cases hc : s.currentEffect with
  | none =>
    simp only [track, hc] at hp
    exact Or.inl ⟨p, hp, q, hq, he⟩
  | some ce =>
    simp only [track, hc] at hp
    rcases mem_amapSet _ _ _ _ hp with hp1 | hp1
    · cases hp1
      rcases mem_amapSet _ _ _ _ hq with hq1 | hq1
      · cases hq1
        rcases (mem_setAdd_iff _ _ _).mp he with he1 | he1
        · rw [← depSetD_eq] at he1
          obtain ⟨deps, dep, hd, hk, hm⟩ := depSetD_mem_cases s o k e he1
          exact Or.inl ⟨(o, deps), amapFind_mem _ _ _ hd, (k, dep), amapFind_mem _ _ _ hk, hm⟩
        · subst he1
          exact Or.inr rfl
      · rcases hd : amapFind s.depsMap o with _ | deps0
        · rw [hd] at hq1
          simp at hq1
        · rw [hd] at hq1
          exact Or.inl ⟨(o, deps0), amapFind_mem _ _ _ hd, q, hq1, he⟩
    · exact Or.inl ⟨p, hp1, q, hq, he⟩

theorem track_nodupD (s : RState) (o : ObjId) (k : Key) (h : NodupD s) :
    NodupD (track s o k) := by
  cases hc : s.currentEffect with
  | none => simpa [track, hc] using h
  | some ce =>
    intro p hp q hq
    simp only [track, hc] at hp
    rcases mem_amapSet _ _ _ _ hp with hp1 | hp1
    · cases hp1
      rcases mem_amapSet _ _ _ _ hq with hq1 | hq1
      · cases hq1
        apply setAdd_nodup
        rw [← depSetD_eq]
        exact nodupD_depSetD s h o k
      · rcases hd : amapFind s.depsMap o with _ | deps0
        · rw [hd] at hq1
          simp at hq1
        · rw [hd] at hq1
          exact h _ (amapFind_mem _ _ _ hd) _ hq1
    · exact h _ hp1 _ hq

theorem track_recorded (s : RState) (o : ObjId) (k : Key) (h : Recorded s) :
    Recorded (track s o k) := by
  refine ⟨?_, ?_, ?_⟩
  · intro p hp q hq e he
    rw [track_log]
    rcases track_mem_cases s o k p hp q hq e he with ⟨p', hp', q', hq', hm⟩ | hcur
    · exact h.1 p' hp' q' hq' e hm
    · apply h.2.1
      simp [hcur]
  · intro e he
    rw [track_current] at he
    rw [track_log]
    exact h.2.1 e he
  · intro e he
    rw [track_stack] at he
    rw [track_log]
    exact h.2.2 e he

theorem getStore_setStore_self (s : RState) (o : ObjId) (k : Key) (v : Value) :
    getStore (setStore s o k v) o k = v := by
  simp [getStore, setStore, amapFind_set_self]

theorem getStore_setStore_ne (s : RState) (o : ObjId) (k : Key) (v : Value)
    (a : ObjId) (b : Key) (h : (a, b) ≠ (o, k)) :
    getStore (setStore s o k v) a b = getStore s a b := by
  simp only [getStore, setStore]
  rw [amapFind_set_ne _ _ _ _ h]

theorem depSetD_setStore (s : RState) (o : ObjId) (k : Key) (v : Value) (a : ObjId) (b : Key) :
    depSetD (setStore s o k v) a b = depSetD s a b := rfl

theorem depSetD_enterState (s : RState) (e : EffectId) (a : ObjId) (b : Key) :
    depSetD (enterState s e) a b = depSetD s a b := rfl

theorem depSetD_unwind (s : RState) (a : ObjId) (b : Key) :
    depSetD (unwind s) a b = depSetD s a b := rfl

theorem passLog_count_run (l : List EffectId) (e : EffectId) :
    (passLog l).count (Event.run e) = l.count e := by
  induction l with
  | nil => rfl
  | cons x t ih =>
    simp only [passLog, List.flatMap_cons, List.count_append, List.count_cons, List.count_nil] at *
    rw [ih]
    by_cases hx : x = e <;> simp [hx]
    omega

theorem passLog_count_invoke (l : List EffectId) (e : EffectId) :
    (passLog l).count (Event.invoke e) = l.count e := by
  induction l with
  | nil => rfl
  | cons x t ih =>
    simp only [passLog, List.flatMap_cons, List.count_append, List.count_cons, List.count_nil] at *
    rw [ih]
    by_cases hx : x = e <;> simp [hx]
    omega

/- Field lemmas for enterState, unwind and setStore. -/

theorem enterState_log (s : RState) (e : EffectId) :
    (enterState s e).log = s.log ++ [Event.invoke e, Event.run e] := rfl

theorem enterState_stack (s : RState) (e : EffectId) :
    (enterState s e).effectsStack = s.effectsStack ++ [e] := rfl

theorem enterState_current (s : RState) (e : EffectId) :
    (enterState s e).currentEffect = some e := rfl

theorem unwind_log (s : RState) : (unwind s).log = s.log := rfl

theorem unwind_stack (s : RState) : (unwind s).effectsStack = s.effectsStack.dropLast := rfl

theorem unwind_current (s : RState) :
    (unwind s).currentEffect = s.effectsStack.dropLast.getLast? := rfl

theorem unwind_store (s : RState) : (unwind s).store = s.store := rfl

theorem setStore_log (s : RState) (o : ObjId) (k : Key) (v : Value) :
    (setStore s o k v).log = s.log := rfl

theorem setStore_stack (s : RState) (o : ObjId) (k : Key) (v : Value) :
    (setStore s o k v).effectsStack = s.effectsStack := rfl

theorem setStore_current (s : RState) (o : ObjId) (k : Key) (v : Value) :
    (setStore s o k v).currentEffect = s.currentEffect := rfl

theorem wf_enterState (s : RState) (e : EffectId) : WF (enterState s e) := by
  unfold WF
  rw [enterState_current, enterState_stack, List.getLast?_concat]

theorem wf_unwind (s : RState) : WF (unwind s) := rfl

/- Recordedness is preserved by the primitive transitions. -/

theorem recorded_log_append (s : RState) (d : List Event) (h : Recorded s) :
    Recorded { s with log := s.log ++ d } := by
  refine ⟨?_, ?_, ?_⟩
  · intro p hp q hq e he
    exact List.mem_append_left _ (h.1 p hp q hq e he)
  · intro e he
    exact List.mem_append_left _ (h.2.1 e he)
  · intro e he
    exact List.mem_append_left _ (h.2.2 e he)

theorem recorded_enterState (s : RState) (e : EffectId) (h : Recorded s) :
    Recorded (enterState s e) := by
  refine ⟨?_, ?_, ?_⟩
  · intro p hp q hq x hx
    rw [enterState_log]
    exact List.mem_append_left _ (h.1 p hp q hq x hx)
  · intro x hx
    rw [enterState_current] at hx
    simp only [Option.toList_some, List.mem_singleton] at hx
    subst hx
    rw [enterState_log]
    apply List.mem_append_right
    simp
  · intro x hx
    rw [enterState_stack] at hx
    rw [enterState_log]
    rcases List.mem_append.mp hx with hx | hx
    · exact List.mem_append_left _ (h.2.2 x hx)
    · simp only [List.mem_singleton] at hx
      subst hx
      apply List.mem_append_right
      simp

theorem mem_of_getLast?_eq {α : Type} (l : List α) (y : α) (h : l.getLast? = some y) :
    y ∈ l := by
  have hy : y ∈ l.getLast? := Option.mem_def.mpr h
  obtain ⟨hne, heq⟩ := List.mem_getLast?_eq_getLast hy
  rw [heq]
  exact List.getLast_mem hne

theorem recorded_unwind (s : RState) (h : Recorded s) : Recorded (unwind s) := by
  refine ⟨?_, ?_, ?_⟩
  · intro p hp q hq x hx
    rw [unwind_log]
    exact h.1 p hp q hq x hx
  · intro x hx
    rw [unwind_current] at hx
    rw [unwind_log]
    rcases hg : s.effectsStack.dropLast.getLast? with _ | y
    · rw [hg] at hx
      simp at hx
    · rw [hg] at hx
      simp only [Option.toList_some, List.mem_singleton] at hx
      subst hx
      apply h.2.2
      exact (List.dropLast_sublist s.effectsStack).mem (mem_of_getLast?_eq _ _ hg)
  · intro x hx
    rw [unwind_stack] at hx
    rw [unwind_log]
    exact h.2.2 x ((List.dropLast_sublist s.effectsStack).mem hx)

/- The preservation relation is reflexive, transitive, and holds for each
primitive transition; by induction it holds for every execution. -/

theorem pres_refl (s : RState) : Pres s s := by
  refine ⟨⟨[], by simp⟩, fun o k e h => h, fun h => h, fun h => h, fun h => ⟨rfl, rfl, h⟩⟩

theorem pres_trans (s1 s2 s3 : RState) (h1 : Pres s1 s2) (h2 : Pres s2 s3) : Pres s1 s3 := by
  refine ⟨?_, ?_, ?_, ?_, ?_⟩
  · obtain ⟨d1, hd1⟩ := h1.log_mono
    obtain ⟨d2, hd2⟩ := h2.log_mono
    exact ⟨d1 ++ d2, by rw [hd2, hd1, List.append_assoc]⟩
  · exact fun o k e h => h2.dep_mono o k e (h1.dep_mono o k e h)
  · exact fun h => h2.nodup (h1.nodup h)
  · exact fun h => h2.recorded (h1.recorded h)
  · intro hwf
    obtain ⟨a1, b1, w1⟩ := h1.wf hwf
    obtain ⟨a2, b2, w2⟩ := h2.wf w1
    exact ⟨a2.trans a1, b2.trans b1, w2⟩

theorem pres_track (s : RState) (o : ObjId) (k : Key) : Pres s (track s o k) := by
  refine ⟨⟨[], by rw [track_log]; simp⟩, fun a b e h => track_dep_mono s o k a b e h,
    track_nodupD s o k, track_recorded s o k, ?_⟩
  intro hwf
  refine ⟨track_stack s o k, track_current s o k, ?_⟩
  unfold WF
  rw [track_current, track_stack]
  exact hwf

theorem pres_setStore (s : RState) (o : ObjId) (k : Key) (v : Value) :
    Pres s (setStore s o k v) := by
  refine ⟨⟨[], by simp [setStore_log]⟩, fun a b e h => h, fun h => h, ?_, ?_⟩
  · intro h
    refine ⟨?_, ?_, ?_⟩
    · intro p hp q hq e he
      exact h.1 p hp q hq e he
    · intro e he
      exact h.2.1 e he
    · intro e he
      exact h.2.2 e he
  · exact fun hwf => ⟨rfl, rfl, hwf⟩

theorem pres_skip (s : RState) (e : EffectId) :
    Pres s { s with log := s.log ++ [Event.invoke e] } := by
  refine ⟨⟨[Event.invoke e], rfl⟩, fun a b x h => h, fun h => h,
    recorded_log_append s [Event.invoke e], fun hwf => ⟨rfl, rfl, hwf⟩⟩

theorem pres_eff_core (s s2 : RState) (e : EffectId) (hpres : Pres (enterState s e) s2) :
    Pres s (unwind s2) := by
  refine ⟨?_, ?_, ?_, ?_, ?_⟩
  · obtain ⟨d, hd⟩ := hpres.log_mono
    rw [enterState_log] at hd
    exact ⟨[Event.invoke e, Event.run e] ++ d, by rw [unwind_log, hd, List.append_assoc]⟩
  · intro a b x hx
    rw [depSetD_unwind]
    exact hpres.dep_mono a b x hx
  · exact fun h => hpres.nodup h
  · exact fun h => recorded_unwind s2 (hpres.recorded (recorded_enterState s e h))
  · intro hwf
    obtain ⟨hstk, hcur, hw2⟩ := hpres.wf (wf_enterState s e)
    rw [enterState_stack] at hstk
    refine ⟨?_, ?_, wf_unwind s2⟩
    · rw [unwind_stack, hstk, List.dropLast_concat]
    · rw [unwind_current, hstk, List.dropLast_concat]
      exact hwf.symm

theorem run_preserves (env : Env) : ∀ (fuel : Nat) (c : Call) (s s' : RState),
    (run env fuel c s = Res.ok s' ∨ run env fuel c s = Res.thrown s') → Pres s s' := by
  intro fuel
  induction fuel with
  | zero =>
    intro c s s' h
    rcases h with h | h <;> simp [run_zero] at h
  | succ n ih =>
    intro c s s' h
    cases c with
    | eff e =>
      rw [run_eff] at h
      by_cases hmem : e ∈ s.effectsStack
      · rw [if_pos hmem] at h
        rcases h with h | h
        · injection h with h2
          subst h2
          exact pres_skip s e
        · simp at h
      · rw [if_neg hmem] at h
        cases hbody : run env n (Call.ops (envComp env e)) (enterState s e) with
        | ok s2 =>
          rw [hbody] at h
          rcases h with h | h
          · injection h with h2
            subst h2
            exact pres_eff_core s s2 e (ih _ _ _ (Or.inl hbody))
          · simp at h
        | thrown s2 =>
          rw [hbody] at h
          rcases h with h | h
          · simp at h
          · injection h with h2
            subst h2
            exact pres_eff_core s s2 e (ih _ _ _ (Or.inr hbody))
        | fuelOut =>
          rw [hbody] at h
          rcases h with h | h <;> simp at h
    | ops l =>
      cases l with
      | nil =>
        rw [run_ops_nil] at h
        rcases h with h | h
        · injection h with h2
          subst h2
          exact pres_refl s
        · simp at h
      | cons op rest =>
        rw [run_ops_cons] at h
        cases h1 : run env n (Call.op1 op) s with
        | ok s1 =>
          rw [h1] at h
          exact pres_trans _ _ _ (ih _ _ _ (Or.inl h1)) (ih _ _ _ h)
        | thrown s1 =>
          rw [h1] at h
          rcases h with h | h
          · simp at h
          · injection h with h2
            subst h2
            exact ih _ _ _ (Or.inr h1)
        | fuelOut =>
          rw [h1] at h
          rcases h with h | h <;> simp at h
    | op1 op =>
      cases op with
      | read o k =>
        rw [run_read] at h
        rcases h with h | h
        · injection h with h2
          subst h2
          exact pres_track s o k
        · simp at h
      | write o k v =>
        rw [run_write] at h
        by_cases hv : v = getStore s o k
        · rw [if_pos hv] at h
          rcases h with h | h
          · injection h with h2
            subst h2
            exact pres_refl s
          · simp at h
        · rw [if_neg hv] at h
          exact pres_trans _ _ _ (pres_setStore s o k v) (ih _ _ _ h)
      | throwErr =>
        rw [run_throw] at h
        rcases h with h | h
        · simp at h
        · injection h with h2
          subst h2
          exact pres_refl s
    | trigger o k =>
      rw [run_trigger_eq] at h
      cases hd : amapFind s.depsMap o with
      | none =>
        rw [hd] at h
        rcases h with h | h
        · injection h with h2
          subst h2
          exact pres_refl s
        · simp at h
      | some deps =>
        simp only [hd] at h
        cases hk : amapFind deps k with
        | none =>
          simp only [hk] at h
          rcases h with h | h
          · injection h with h2
            subst h2
            exact pres_refl s
          · simp at h
        | some dep =>
          simp only [hk] at h
          exact ih _ _ _ h
    | each l =>
      cases l with
      | nil =>
        rw [run_each_nil] at h
        rcases h with h | h
        · injection h with h2
          subst h2
          exact pres_refl s
        · simp at h
      | cons e rest =>
        rw [run_each_cons] at h
        cases h1 : run env n (Call.eff e) s with
        | ok s1 =>
          rw [h1] at h
          exact pres_trans _ _ _ (ih _ _ _ (Or.inl h1)) (ih _ _ _ h)
        | thrown s1 =>
          rw [h1] at h
          rcases h with h | h
          · simp at h
          · injection h with h2
            subst h2
            exact ih _ _ _ (Or.inr h1)
        | fuelOut =>
          rw [h1] at h
          rcases h with h | h <;> simp at h

/- Purely reading computations: their exact effect on the state. -/

theorem trackAll_nil (s : RState) : trackAll s [] = s := rfl

theorem trackAll_read (s : RState) (o : ObjId) (k : Key) (rest : List Op) :
    trackAll s (Op.read o k :: rest) = trackAll (track s o k) rest := rfl

theorem trackAll_store (ops : List Op) : ∀ s : RState, (trackAll s ops).store = s.store := by
  induction ops with
  | nil => intro s; rfl
  | cons op rest ih =>
    intro s
    cases op with
    | read o k => rw [trackAll_read, ih, track_store]
    | write o k v => exact ih s
    | throwErr => exact ih s

theorem trackAll_log (ops : List Op) : ∀ s : RState, (trackAll s ops).log = s.log := by
  induction ops with
  | nil => intro s; rfl
  | cons op rest ih =>
    intro s
    cases op with
    | read o k => rw [trackAll_read, ih, track_log]
    | write o k v => exact ih s
    | throwErr => exact ih s

theorem trackAll_stack (ops : List Op) :
    ∀ s : RState, (trackAll s ops).effectsStack = s.effectsStack := by
  induction ops with
  | nil => intro s; rfl
  | cons op rest ih =>
    intro s
    cases op with
    | read o k => rw [trackAll_read, ih, track_stack]
    | write o k v => exact ih s
    | throwErr => exact ih s

theorem trackAll_current (ops : List Op) :
    ∀ s : RState, (trackAll s ops).currentEffect = s.currentEffect := by
  induction ops with
  | nil => intro s; rfl
  | cons op rest ih =>
    intro s
    cases op with
    | read o k => rw [trackAll_read, ih, track_current]
    | write o k v => exact ih s
    | throwErr => exact ih s

theorem trackAll_dep_mono (ops : List Op) :
    ∀ (s : RState) (a : ObjId) (b : Key) (e : EffectId),
      e ∈ depSetD s a b → e ∈ depSetD (trackAll s ops) a b := by
  induction ops with
  | nil => intro s a b e h; exact h
  | cons op rest ih =>
    intro s a b e h
    cases op with
    | read o k => exact ih _ a b e (track_dep_mono s o k a b e h)
    | write o k v => exact ih s a b e h
    | throwErr => exact ih s a b e h

theorem trackAll_tracked (ops : List Op) :
    ∀ (s : RState) (ce : EffectId) (o : ObjId) (k : Key),
      s.currentEffect = some ce → Op.read o k ∈ ops →
      ce ∈ depSetD (trackAll s ops) o k := by
  induction ops with
  | nil => intro s ce o k hc hm; simp at hm
  | cons op rest ih =>
    intro s ce o k hc hm
    rcases List.mem_cons.mp hm with hmm | hmm
    · subst hmm
      rw [trackAll_read]
      apply trackAll_dep_mono
      rw [depSetD_track_self s o k ce hc, mem_setAdd_iff]
      exact Or.inr rfl
    · clear hm
      cases op with
      | read a b =>
        rw [trackAll_read]
        exact ih _ ce o k (by rw [track_current]; exact hc) hmm
      | write a b v => exact ih s ce o k hc hmm
      | throwErr => exact ih s ce o k hc hmm

theorem trackAll_dep_ne (ops : List Op) :
    ∀ (s : RState) (a : ObjId) (b : Key), Op.read a b ∉ ops →
      depSetD (trackAll s ops) a b = depSetD s a b := by
  induction ops with
  | nil => intro s a b _; rfl
  | cons op rest ih =>
    intro s a b hnot
    have hnothead : op ≠ Op.read a b := fun hh => hnot (hh ▸ List.mem_cons_self op rest)
    have hnotrest : Op.read a b ∉ rest := fun hh => hnot (List.mem_cons_of_mem _ hh)
    cases op with
    | read o k =>
      rw [trackAll_read, ih _ a b hnotrest]
      apply depSetD_track_ne
      by_cases ho : a = o
      · subst ho
        refine Or.inr (fun hk => ?_)
        subst hk
        exact hnothead rfl
      · exact Or.inl ho
    | write o k v => exact ih s a b hnotrest
    | throwErr => exact ih s a b hnotrest

theorem trackAll_nodupD (ops : List Op) :
    ∀ s : RState, NodupD s → NodupD (trackAll s ops) := by
  induction ops with
  | nil => intro s h; exact h
  | cons op rest ih =>
    intro s h
    cases op with
    | read o k => exact ih _ (track_nodupD s o k h)
    | write o k v => exact ih s h
    | throwErr => exact ih s h

theorem allReads_envComp (env : Env) (hro : ReadOnlyEnv env) (e : EffectId) :
    allReads (envComp env e) := by
  unfold envComp
  rcases hf : amapFind env e with _ | l
  · intro op hop
    simp at hop
  · simp only [Option.getD_some]
    exact hro (e, l) (amapFind_mem _ _ _ hf)

theorem run_ops_reads (env : Env) : ∀ (ops : List Op) (fuel : Nat) (s : RState), allReads ops →
    run env fuel (Call.ops ops) s = Res.ok (trackAll s ops) ∨
      run env fuel (Call.ops ops) s = Res.fuelOut := by
  intro ops
  induction ops with
  | nil =>
    intro fuel s _
    cases fuel with
    | zero => exact Or.inr rfl
    | succ n => exact Or.inl rfl
  | cons op rest ih =>
    intro fuel s h
    have hop : op.isRead = true := h op (List.mem_cons_self op rest)
    have hrest : allReads rest := fun x hx => h x (List.mem_cons_of_mem _ hx)
    cases op with
    | read o k =>
      cases fuel with
      | zero => exact Or.inr rfl
      | succ n =>
        cases n with
        | zero => exact Or.inr rfl
        | succ m =>
          rw [run_ops_cons, run_read]
          exact ih (m + 1) (track s o k) hrest
    | write o k v => exact absurd hop (by simp [Op.isRead])
    | throwErr => exact absurd hop (by simp [Op.isRead])

/-- Exact behaviour of one notification pass invoked from an idle context
(empty stack, no current effect) when every effect's computation only
reads: every snapshot member's wrapper is invoked, its computation runs,
the stack and current effect are restored, the store is untouched, and
the log grows by exactly one invoke/run pair per member; subscriber sets
of a coordinate no member reads are unchanged. -/
theorem pass_props (env : Env) (hro : ReadOnlyEnv env) : ∀ (l : List EffectId) (fuel : Nat)
    (s s' : RState), s.effectsStack = [] → s.currentEffect = none →
    run env fuel (Call.each l) s = Res.ok s' →
    s'.log = s.log ++ passLog l ∧ s'.store = s.store ∧
    s'.effectsStack = [] ∧ s'.currentEffect = none ∧
    (∀ a b, (∀ e ∈ l, Op.read a b ∉ envComp env e) → depSetD s' a b = depSetD s a b) := by
  intro l
  induction l with
  | nil =>
    intro fuel s s' hstk hcur h
    cases fuel with
    | zero =>
      rw [run_zero] at h
      simp at h
    | succ n =>
      rw [run_each_nil] at h
      injection h with h2
      subst h2
      exact ⟨by simp [passLog], rfl, hstk, hcur, fun a b _ => rfl⟩
  | cons e rest ih =>
    intro fuel s s' hstk hcur h
    cases fuel with
    | zero =>
      rw [run_zero] at h
      simp at h
    | succ n =>
      rw [run_each_cons] at h
      cases n with
      | zero =>
        simp [run_zero] at h
      | succ m =>
        have hmem : e ∉ s.effectsStack := by rw [hstk]; simp
        rw [run_eff, if_neg hmem] at h
        have hcomp : allReads (envComp env e) := allReads_envComp env hro e
        rcases run_ops_reads env (envComp env e) m (enterState s e) hcomp with hb | hb
        · rw [hb] at h
          have hTstk : (trackAll (enterState s e) (envComp env e)).effectsStack = [e] := by
            rw [trackAll_stack, enterState_stack, hstk]
            simp
          have h1stk : (unwind (trackAll (enterState s e) (envComp env e))).effectsStack = [] := by
            rw [unwind_stack, hTstk]
            simp
          have h1cur : (unwind (trackAll (enterState s e) (envComp env e))).currentEffect
              = none := by
            rw [unwind_current, hTstk]
            simp
          have h1log : (unwind (trackAll (enterState s e) (envComp env e))).log
              = s.log ++ [Event.invoke e, Event.run e] := by
            rw [unwind_log, trackAll_log, enterState_log]
          have h1store : (unwind (trackAll (enterState s e) (envComp env e))).store
              = s.store := by
            rw [unwind_store, trackAll_store]
            rfl
          obtain ⟨l1, l2, l3, l4, l5⟩ := ih (m + 1) _ s' h1stk h1cur h
          refine ⟨?_, ?_, l3, l4, ?_⟩
          · rw [l1, h1log]
            simp [passLog]
          · rw [l2, h1store]
          · intro a b hh
            have hnot : Op.read a b ∉ envComp env e := hh e (List.mem_cons_self e rest)
            rw [l5 a b (fun x hx => hh x (List.mem_cons_of_mem _ hx))]
            rw [depSetD_unwind, trackAll_dep_ne _ _ a b hnot, depSetD_enterState]
        · rw [hb] at h
          simp at h

/-- Core counting invariant behind "no spurious invocation": in a
recorded state, any execution whose snapshots come from the registry
(CallOK) leaves the invocation count of an effect unchanged unless that
effect has a recorded run; in particular an effect that never became the
current effect is never invoked. -/
theorem invokes_need_runs (env : Env) : ∀ (fuel : Nat) (c : Call) (s s' : RState) (e : EffectId),
    Recorded s → CallOK s c →
    (run env fuel c s = Res.ok s' ∨ run env fuel c s = Res.thrown s') →
    Event.run e ∉ s'.log →
    s'.log.count (Event.invoke e) = s.log.count (Event.invoke e) := by
  intro fuel
  induction fuel with
  | zero =>
    intro c s s' e _ _ h _
    rcases h with h | h <;> simp [run_zero] at h
  | succ n ih =>
    intro c s s' e hrec hok h hne
    cases c with
    | eff x =>
      have hx : Event.run x ∈ s.log := hok
      have hxlog : Event.run x ∈ s'.log := by
        obtain ⟨d, hd⟩ := (run_preserves env (n + 1) (Call.eff x) s s' h).log_mono
        rw [hd]
        exact List.mem_append_left _ hx
      have hxe : x ≠ e := fun hh => hne (hh ▸ hxlog)
      rw [run_eff] at h
      by_cases hmem : x ∈ s.effectsStack
      · rw [if_pos hmem] at h
        rcases h with h | h
        · injection h with h2
          subst h2
          simp [List.count_append, List.count_cons, hxe]
        · simp at h
      · rw [if_neg hmem] at h
        cases hbody : run env n (Call.ops (envComp env x)) (enterState s x) with
        | ok s2 =>
          rw [hbody] at h
          rcases h with h | h
          · injection h with h2
            subst h2
            rw [unwind_log] at hne
            have e1 := ih (Call.ops (envComp env x)) (enterState s x) s2 e
              (recorded_enterState s x hrec) trivial (Or.inl hbody) hne
            rw [unwind_log, e1, enterState_log]
            simp [List.count_append, List.count_cons, hxe]
          · simp at h
        | thrown s2 =>
          rw [hbody] at h
          rcases h with h | h
          · simp at h
          · injection h with h2
            subst h2
            rw [unwind_log] at hne
            have e1 := ih (Call.ops (envComp env x)) (enterState s x) s2 e
              (recorded_enterState s x hrec) trivial (Or.inr hbody) hne
            rw [unwind_log, e1, enterState_log]
            simp [List.count_append, List.count_cons, hxe]
        | fuelOut =>
          rw [hbody] at h
          rcases h with h | h <;> simp at h
    | ops l =>
      cases l with
      | nil =>
        rw [run_ops_nil] at h
        rcases h with h | h
        · injection h with h2
          subst h2
          rfl
        · simp at h
      | cons op rest =>
        rw [run_ops_cons] at h
        cases h1 : run env n (Call.op1 op) s with
        | ok s1 =>
          rw [h1] at h
          have hrec1 : Recorded s1 := (run_preserves env n _ s s1 (Or.inl h1)).recorded hrec
          have hne1 : Event.run e ∉ s1.log := by
            obtain ⟨d, hd⟩ := (run_preserves env n (Call.ops rest) s1 s' h).log_mono
            intro hm
            exact hne (hd ▸ List.mem_append_left _ hm)
          have e1 := ih (Call.op1 op) s s1 e hrec trivial (Or.inl h1) hne1
          have e2 := ih (Call.ops rest) s1 s' e hrec1 trivial h hne
          rw [e2, e1]
        | thrown s1 =>
          rw [h1] at h
          rcases h with h | h
          · simp at h
          · injection h with h2
            subst h2
            exact ih (Call.op1 op) s _ e hrec trivial (Or.inr h1) hne
        | fuelOut =>
          rw [h1] at h
          rcases h with h | h <;> simp at h
    | op1 op =>
      cases op with
      | read o k =>
        rw [run_read] at h
        rcases h with h | h
        · injection h with h2
          subst h2
          rw [track_log]
        · simp at h
      | write o k v =>
        rw [run_write] at h
        by_cases hv : v = getStore s o k
        · rw [if_pos hv] at h
          rcases h with h | h
          · injection h with h2
            subst h2
            rfl
          · simp at h
        · rw [if_neg hv] at h
          exact ih (Call.trigger o k) (setStore s o k v) s' e
            ((pres_setStore s o k v).recorded hrec) trivial h hne
      | throwErr =>
        rw [run_throw] at h
        rcases h with h | h
        · simp at h
        · injection h with h2
          subst h2
          rfl
    | trigger o k =>
      rw [run_trigger_eq] at h
      cases hd : amapFind s.depsMap o with
      | none =>
        rw [hd] at h
        rcases h with h | h
        · injection h with h2
          subst h2
          rfl
        · simp at h
      | some deps =>
        simp only [hd] at h
        cases hk : amapFind deps k with
        | none =>
          simp only [hk] at h
          rcases h with h | h
          · injection h with h2
            subst h2
            rfl
          · simp at h
        | some dep =>
          simp only [hk] at h
          have hokE : CallOK s (Call.each dep) := by
            intro x hx
            exact hrec.1 _ (amapFind_mem _ _ _ hd) _ (amapFind_mem _ _ _ hk) _ hx
          exact ih (Call.each dep) s s' e hrec hokE h hne
    | each l =>
      cases l with
      | nil =>
        rw [run_each_nil] at h
        rcases h with h | h
        · injection h with h2
          subst h2
          rfl
        · simp at h
      | cons x rest =>
        have hx : Event.run x ∈ s.log := hok x (List.mem_cons_self x rest)
        rw [run_each_cons] at h
        cases h1 : run env n (Call.eff x) s with
        | ok s1 =>
          rw [h1] at h
          have hpres1 := run_preserves env n (Call.eff x) s s1 (Or.inl h1)
          have hrec1 : Recorded s1 := hpres1.recorded hrec
          have hok1 : CallOK s1 (Call.each rest) := by
            intro y hy
            obtain ⟨d, hd1⟩ := hpres1.log_mono
            rw [hd1]
            exact List.mem_append_left _ (hok y (List.mem_cons_of_mem _ hy))
          have hne1 : Event.run e ∉ s1.log := by
            obtain ⟨d, hd1⟩ := (run_preserves env n (Call.each rest) s1 s' h).log_mono
            intro hm
            exact hne (hd1 ▸ List.mem_append_left _ hm)
          have e1 := ih (Call.eff x) s s1 e hrec hx (Or.inl h1) hne1
          have e2 := ih (Call.each rest) s1 s' e hrec1 hok1 h hne
          rw [e2, e1]
        | thrown s1 =>
          rw [h1] at h
          rcases h with h | h
          · simp at h
          · injection h with h2
            subst h2
            exact ih (Call.eff x) s _ e hrec hx (Or.inr h1) hne
        | fuelOut =>
          rw [h1] at h
          rcases h with h | h <;> simp at h

theorem setStore_depsMap (s : RState) (o : ObjId) (k : Key) (v : Value) :
    (setStore s o k v).depsMap = s.depsMap := rfl

theorem depSetD_finds (s : RState) (o : ObjId) (k : Key)
    (deps : List (Key × List EffectId)) (dep : List EffectId)
    (hd : amapFind s.depsMap o = some deps) (hk : amapFind deps k = some dep) :
    depSetD s o k = dep := by
  unfold depSetD
  simp only [hd, hk]

/-- A successful wrapper invocation from an idle state, in a read-only
environment, does exactly what the source protocol says: enter, perform
the tracking reads, and unwind. -/
theorem run_eff_reads (env : Env) (hro : ReadOnlyEnv env) (fuel : Nat) (e : EffectId)
    (s s1 : RState) (hstk : s.effectsStack = [])
    (h : run env fuel (Call.eff e) s = Res.ok s1) :
    s1 = unwind (trackAll (enterState s e) (envComp env e)) := by
  cases fuel with
  | zero =>
    rw [run_zero] at h
    simp at h
  | succ n =>
    have hmem : e ∉ s.effectsStack := by
      rw [hstk]
      simp
    rw [run_eff, if_neg hmem] at h
    rcases run_ops_reads env (envComp env e) n (enterState s e) (allReads_envComp env hro e)
      with hb | hb
    · rw [hb] at h
      injection h with h2
      exact h2.symm
    · rw [hb] at h
      simp at h

theorem amapFind_map_keys (g : Key → JSProp) : ∀ (keys : List Key) (k : Key),
    keys.Nodup → k ∈ keys →
    amapFind (keys.map (fun x => (x, g x))) k = some (g k) := by
  intro keys
  induction keys with
  | nil =>
    intro k _ h
    simp at h
  | cons a t ih =>
    intro k hnd hm
    rcases List.mem_cons.mp hm with hm | hm
    · subst hm
      simp [amapFind]
    · have hna : a ≠ k := by
        intro hh
        subst hh
        exact (List.nodup_cons.mp hnd).1 hm
      simp only [List.map_cons, amapFind, if_neg hna]
      exact ih k (List.nodup_cons.mp hnd).2 hm

theorem amapFind_eq_of_mem {α β : Type} [DecidableEq α] : ∀ (m : List (α × β)) (a : α) (b : β),
    (a, b) ∈ m → (m.map Prod.fst).Nodup → amapFind m a = some b := by
  intro m
  induction m with
  | nil =>
    intro a b h _
    simp at h
  | cons p t ih =>
    intro a b h hnd
    obtain ⟨a0, b0⟩ := p
    rcases List.mem_cons.mp h with h | h
    · cases h
      simp [amapFind]
    · have hna : a0 ≠ a := by
        intro hh
        subst hh
        exact (List.nodup_cons.mp hnd).1 (List.mem_map.mpr ⟨(a0, b), h, rfl⟩)
      simp only [amapFind, if_neg hna]
      exact ih a b h (List.nodup_cons.mp hnd).2

theorem amapFind_append_of_none {α β : Type} [DecidableEq α] :
    ∀ (m1 m2 : List (α × β)) (a : α),
    amapFind m1 a = none → amapFind (m1 ++ m2) a = amapFind m2 a := by
  intro m1
  induction m1 with
  | nil =>
    intro m2 a _
    rfl
  | cons p t ih =>
    intro m2 a h
    obtain ⟨a0, b0⟩ := p
    by_cases h0 : a0 = a
    · subst h0
      simp [amapFind] at h
    · simp only [amapFind, if_neg h0] at h
      simp only [List.cons_append, amapFind, if_neg h0]
      exact ih m2 a h

theorem filter_map_keys_true (g : Key → JSProp) (pred : Key × JSProp → Bool)
    (hg : ∀ k, pred (k, g k) = true) : ∀ l : List Key,
    (l.map (fun x => (x, g x))).filter pred = l.map (fun x => (x, g x)) := by
  intro l
  induction l with
  | nil => rfl
  | cons a t ih => simp [List.filter_cons, hg a, ih]

theorem filter_map_keys_false (g : Key → JSProp) (pred : Key × JSProp → Bool)
    (hg : ∀ k, pred (k, g k) = false) : ∀ l : List Key,
    (l.map (fun x => (x, g x))).filter pred = [] := by
  intro l
  induction l with
  | nil => rfl
  | cons a t ih => simp [List.filter_cons, hg a, ih]

theorem map_fst_map_keys (g : Key → JSProp) : ∀ l : List Key,
    (l.map (fun x => (x, g x))).map Prod.fst = l := by
  intro l
  induction l with
  | nil => rfl
  | cons a t ih => simp [ih]

theorem interceptedKeys_reactive (freshId : Nat) (obj : JSObject) :
    interceptedKeys (reactive freshId obj) = objectKeys obj := by
  unfold interceptedKeys reactive
  rw [filter_map_keys_true (interceptProp obj) _ (fun k => rfl)]
  exact map_fst_map_keys (interceptProp obj) (objectKeys obj)

theorem objectKeys_reactive (freshId : Nat) (obj : JSObject) :
    objectKeys (reactive freshId obj) = [] := by
  unfold objectKeys reactive
  rw [filter_map_keys_false (interceptProp obj) _ (fun k => rfl)]
  rfl

/-- C1: dependency capture and exactly-once re-run.  If effect E's
computation reads O.P (in a cascade-free, purely reading environment,
implementing the claim's "not counting further cascades" proviso), then
after any successful run of E from an idle state, writing a value
strictly different from the stored value to O.P re-runs E exactly once:
the run count of E in the log grows by exactly one. -/
theorem claim_C1 (f1 f2 : Nat) (env : Env) (E : EffectId) (O : ObjId) (P : Key) (v : Value)
    (s s1 s2 : RState)
    (hro : ReadOnlyEnv env) (hread : Op.read O P ∈ envComp env E)
    (hstk : s.effectsStack = []) (hcur : s.currentEffect = none) (hnd : NodupD s)
    (hrun : run env f1 (Call.eff E) s = Res.ok s1)
    (hne : v ≠ getStore s1 O P)
    (hw : run env f2 (Call.op1 (Op.write O P v)) s1 = Res.ok s2) :
    s2.log.count (Event.run E) = s1.log.count (Event.run E) + 1 := by
  have hs1 := run_eff_reads env hro f1 E s s1 hstk hrun
  have hmemE : E ∈ depSetD s1 O P := by
    rw [hs1, depSetD_unwind]
    exact trackAll_tracked (envComp env E) (enterState s E) E O P rfl hread
  have hnd1 : NodupD s1 := by
    rw [hs1]
    exact trackAll_nodupD (envComp env E) (enterState s E) hnd
  have hstk1 : s1.effectsStack = [] := by
    rw [hs1, unwind_stack, trackAll_stack, enterState_stack, hstk]
    simp
  have hcur1 : s1.currentEffect = none := by
    rw [hs1, unwind_current, trackAll_stack, enterState_stack, hstk]
    simp
  cases f2 with
  | zero =>
    rw [run_zero] at hw
    simp at hw
  | succ n =>
    rw [run_write, if_neg hne] at hw
    cases n with
    | zero =>
      rw [run_zero] at hw
      simp at hw
    | succ m =>
      rw [run_trigger_eq] at hw
      obtain ⟨deps, dep, hd, hk, hmem⟩ := depSetD_mem_cases s1 O P E hmemE
      simp only [setStore_depsMap, hd, hk] at hw
      obtain ⟨l1, _, _, _, _⟩ := pass_props env hro dep m (setStore s1 O P v) s2
        (by rw [setStore_stack]; exact hstk1) (by rw [setStore_current]; exact hcur1) hw
      have hdnd : dep.Nodup := by
        have h0 := nodupD_depSetD s1 hnd1 O P
        rw [depSetD_finds s1 O P deps dep hd hk] at h0
        exact h0
      rw [l1, setStore_log, List.count_append, passLog_count_run,
        List.count_eq_one_of_mem hdnd hmem]

/-- C1 witness: effect 0 reads (0, "x") under envR; its initial run from
the pristine state yields sTracked, and writing 1 (different from the
stored 0) re-runs it exactly once. -/
theorem claim_C1_witness :
    run envR 3 (Call.eff 0) sInit = Res.ok sTracked ∧
    run envR 7 (Call.op1 (Op.write 0 "x" (Value.num 1))) sTracked = Res.ok sAfterWrite ∧
    sAfterWrite.log.count (Event.run 0) = sTracked.log.count (Event.run 0) + 1 :=
  ⟨by decide, by decide,
   claim_C1 3 7 envR 0 0 "x" (Value.num 1) sInit sTracked sAfterWrite (by decide) (by decide)
     rfl rfl (by decide) (by decide) (by decide) (by decide)⟩

/-- C2: re-entrancy guard.  When the wrapper of effect e is invoked while
e is already on the active-call stack, the wrapped computation is not
invoked at all: the only observable change is the invocation record
itself; registry, store, stack, current effect are untouched and no run
event is logged. -/
theorem claim_C2 (fuel : Nat) (env : Env) (e : EffectId) (s : RState)
    (h : e ∈ s.effectsStack) :
    run env (fuel + 1) (Call.eff e) s = Res.ok { s with log := s.log ++ [Event.invoke e] } := by
  rw [run_eff, if_pos h]

/-- C2 witness: invoking effect 0's wrapper in a state where 0 is on the
stack is skipped entirely. -/
theorem claim_C2_witness :
    run envR 4 (Call.eff 0) sBusy = Res.ok { sBusy with log := sBusy.log ++ [Event.invoke 0] } :=
  claim_C2 3 envR 0 sBusy (by decide)

/-- C3: guaranteed cleanup and exception propagation.  First part: on any
completed wrapper invocation — normal or thrown — from a well-formed
state, the effect is popped off the stack (the stack is restored) and the
current effect equals the new top of the stack (or none when empty).
Second part: when the wrapped computation throws, the wrapper re-raises
the exception after the cleanup, so the initial `effect()` call inside
createEffect propagates it to createEffect's caller. -/
theorem claim_C3 (fuel : Nat) (env : Env) (e : EffectId) (s s1 s2 : RState) :
    (WF s →
      (run env fuel (Call.eff e) s = Res.ok s1 ∨ run env fuel (Call.eff e) s = Res.thrown s1) →
      s1.effectsStack = s.effectsStack ∧ s1.currentEffect = s1.effectsStack.getLast?) ∧
    (e ∉ s.effectsStack →
      run env fuel (Call.ops (envComp env e)) (enterState s e) = Res.thrown s2 →
      run env (fuel + 1) (Call.eff e) s = Res.thrown (unwind s2)) := by
  constructor
  · intro hwf h
    obtain ⟨hstka, hcura, hwf1⟩ := (run_preserves env fuel (Call.eff e) s s1 h).wf hwf
    exact ⟨hstka, hwf1⟩
  · intro hmem hthrow
    rw [run_eff, if_neg hmem, hthrow]

/-- C3 witness: effect 0 under envT throws; its body indeed throws from
the entered state, the wrapper re-raises the exception, and stack and
current effect are restored. -/
theorem claim_C3_witness :
    run envT 3 (Call.eff 0) sInit = Res.thrown (unwind (enterState sInit 0)) ∧
    (unwind (enterState sInit 0)).effectsStack = sInit.effectsStack ∧
    (unwind (enterState sInit 0)).currentEffect
      = (unwind (enterState sInit 0)).effectsStack.getLast? :=
  ⟨(claim_C3 2 envT 0 sInit sInit (enterState sInit 0)).2 (by decide) (by decide),
   (claim_C3 3 envT 0 sInit (unwind (enterState sInit 0)) sInit).1 (by decide)
     (Or.inr (by decide))⟩

/-- C4: change filtering in the set accessor.  Writing a value strictly
equal to the stored value is a complete no-op: the interpreter returns
the state unchanged (no store update, no trigger, no log event).  Writing
a strictly different value first updates the stored value and then runs
trigger on the same coordinate. -/
theorem claim_C4 (fuel : Nat) (env : Env) (o : ObjId) (k : Key) (v : Value) (s : RState) :
    (v = getStore s o k → run env (fuel + 1) (Call.op1 (Op.write o k v)) s = Res.ok s) ∧
    (v ≠ getStore s o k →
      getStore (setStore s o k v) o k = v ∧
      run env (fuel + 1) (Call.op1 (Op.write o k v)) s
        = run env fuel (Call.trigger o k) (setStore s o k v)) := by
  constructor
  · intro hv
    rw [run_write, if_pos hv]
  · intro hv
    exact ⟨getStore_setStore_self s o k v, by rw [run_write, if_neg hv]⟩

/-- C4 witness: writing the stored value 0 back to (0, "x") is a no-op;
writing 1 updates the stored value to 1. -/
theorem claim_C4_witness :
    run envR 5 (Call.op1 (Op.write 0 "x" (Value.num 0))) sInit = Res.ok sInit ∧
    getStore (setStore sInit 0 "x" (Value.num 1)) 0 "x" = Value.num 1 :=
  ⟨(claim_C4 4 envR 0 "x" (Value.num 0) sInit).1 (by decide),
   ((claim_C4 4 envR 0 "x" (Value.num 1) sInit).2 (by decide)).1⟩

/-- C5: no spurious tracking.  First part: executing a get accessor (a
read) while no effect is current returns the state completely unchanged —
track performs no registry bookkeeping.  Second part: a write never
invokes a function that was never current during a run: in any recorded
state (one whose registry, current effect and stack are accounted for by
the run log — true of every state reachable from the pristine one), if
effect e has no run event even after the write completes, then the write
did not invoke e at all. -/
theorem claim_C5 (fuel : Nat) (env : Env) (o : ObjId) (k : Key) (v : Value)
    (s s' : RState) (e : EffectId) :
    (s.currentEffect = none → run env (fuel + 1) (Call.op1 (Op.read o k)) s = Res.ok s) ∧
    (Recorded s → run env fuel (Call.op1 (Op.write o k v)) s = Res.ok s' →
      Event.run e ∉ s'.log →
      s'.log.count (Event.invoke e) = s.log.count (Event.invoke e)) := by
  constructor
  · intro hc
    rw [run_read]
    simp [track, hc]
  · intro hrec h hne
    exact invokes_need_runs env fuel (Call.op1 (Op.write o k v)) s s' e hrec trivial
      (Or.inl h) hne

/-- C5 witness: reading (0, "x") outside any effect run changes nothing;
writing 1 to (0, "x") in the recorded state sC5 re-runs the subscriber 1
but never invokes effect 2, which never ran. -/
theorem claim_C5_witness :
    run envC5 3 (Call.op1 (Op.read 0 "x")) sC5 = Res.ok sC5 ∧
    run envC5 7 (Call.op1 (Op.write 0 "x" (Value.num 1))) sC5 = Res.ok sC5w ∧
    Event.run 2 ∉ sC5w.log ∧
    sC5w.log.count (Event.invoke 2) = sC5.log.count (Event.invoke 2) :=
  ⟨(claim_C5 2 envC5 0 "x" (Value.num 1) sC5 sC5w 2).1 rfl,
   by decide, by decide,
   (claim_C5 7 envC5 0 "x" (Value.num 1) sC5 sC5w 2).2 (by decide) (by decide) (by decide)⟩

/-- C7: trigger is a guarded snapshot fan-out.  If the target has no
registry entry, or its key has no subscriber set, trigger returns the
state unchanged (invokes nothing, changes nothing).  Otherwise the pass
is determined by the subscriber list captured at entry (the snapshot): in
a cascade-free environment, from an idle state, the log grows by exactly
one invoke/run pair per snapshot member in order, so every effect in the
snapshot is invoked exactly once, regardless of any subscriptions the
running effects add during the pass. -/
theorem claim_C7 (fuel : Nat) (env : Env) (o : ObjId) (k : Key) (s s' : RState) :
    (amapFind s.depsMap o = none → run env (fuel + 1) (Call.trigger o k) s = Res.ok s) ∧
    (∀ deps, amapFind s.depsMap o = some deps → amapFind deps k = none →
      run env (fuel + 1) (Call.trigger o k) s = Res.ok s) ∧
    (∀ deps dep, ReadOnlyEnv env → amapFind s.depsMap o = some deps →
      amapFind deps k = some dep → dep.Nodup →
      s.effectsStack = [] → s.currentEffect = none →
      run env (fuel + 1) (Call.trigger o k) s = Res.ok s' →
      s'.log = s.log ++ passLog dep ∧
      ∀ e ∈ dep, s'.log.count (Event.invoke e) = s.log.count (Event.invoke e) + 1) := by
  refine ⟨?_, ?_, ?_⟩
  · intro hd
    rw [run_trigger_eq]
    simp only [hd]
  · intro deps hd hk
    rw [run_trigger_eq]
    simp only [hd, hk]
  · intro deps dep hro hd hk hnd hstk hcur h
    rw [run_trigger_eq] at h
    simp only [hd, hk] at h
    obtain ⟨l1, _, _, _, _⟩ := pass_props env hro dep fuel s s' hstk hcur h
    refine ⟨l1, ?_⟩
    intro x hx
    rw [l1, List.count_append, passLog_count_invoke, List.count_eq_one_of_mem hnd hx]

/-- C7 witness: triggering (0, "x") in sC5 (snapshot [1]) invokes effect
1 exactly once; triggering a coordinate with no registry entry is a
no-op. -/
theorem claim_C7_witness :
    run envC5 5 (Call.trigger 0 "x") sC5 = Res.ok sC5trig ∧
    sC5trig.log = sC5.log ++ passLog [1] ∧
    sC5trig.log.count (Event.invoke 1) = sC5.log.count (Event.invoke 1) + 1 ∧
    run envC5 5 (Call.trigger 7 "x") sC5 = Res.ok sC5 :=
  ⟨by decide,
   ((claim_C7 4 envC5 0 "x" sC5 sC5trig).2.2 [("x", [1])] [1] (by decide) (by decide)
     (by decide) (by decide) rfl rfl (by decide)).1,
   ((claim_C7 4 envC5 0 "x" sC5 sC5trig).2.2 [("x", [1])] [1] (by decide) (by decide)
     (by decide) (by decide) rfl rfl (by decide)).2 1 (by decide),
   (claim_C7 4 envC5 7 "x" sC5 sC5).1 (by decide)⟩

/-- C8 counterexample: the claim "a write to O.Q never re-runs an effect
that only ever read O.P" is false on the code as universally stated,
because the synchronous cascade is unbounded: in sC8, effect 1's
computation is exactly one read of (0, "p") (and its recorded history
matches), yet writing 1 to (0, "q") runs subscriber 2, whose write of 7
to (0, "p") triggers (0, "p") and re-runs effect 1 — its run count grows
by one within the write to (0, "q"). -/
theorem claim_C8_counterexample :
    envComp envC8 1 = [Op.read 0 "p"] ∧
    1 ∈ depSetD sC8 0 "p" ∧ 1 ∉ depSetD sC8 0 "q" ∧
    run envC8 15 (Call.op1 (Op.write 0 "q" (Value.num 1))) sC8 = Res.ok sC8after ∧
    sC8after.log.count (Event.run 1) = sC8.log.count (Event.run 1) + 1 := by
  refine ⟨by decide, by decide, by decide, by decide, by decide⟩

/-- C8 amended: isolation across keys holds for the notification
mechanism itself, i.e. whenever the write's cascade cannot write O.P (in
particular in a purely reading environment): if e is subscribed to
(o, p) but not to (o, q), a write to (o, q) from an idle state never
re-runs e. -/
theorem claim_C8 (fuel : Nat) (env : Env) (o : ObjId) (p q : Key) (v : Value)
    (s s' : RState) (e : EffectId)
    (hro : ReadOnlyEnv env) (hpq : p ≠ q)
    (hin : e ∈ depSetD s o p) (hout : e ∉ depSetD s o q)
    (hstk : s.effectsStack = []) (hcur : s.currentEffect = none)
    (h : run env fuel (Call.op1 (Op.write o q v)) s = Res.ok s') :
    s'.log.count (Event.run e) = s.log.count (Event.run e) := by
  cases fuel with
  | zero =>
    rw [run_zero] at h
    simp at h
  | succ n =>
    rw [run_write] at h
    by_cases hv : v = getStore s o q
    · rw [if_pos hv] at h
      injection h with h2
      subst h2
      rfl
    · rw [if_neg hv] at h
      cases n with
      | zero =>
        rw [run_zero] at h
        simp at h
      | succ m =>
        rw [run_trigger_eq] at h
        cases hd : amapFind s.depsMap o with
        | none =>
          simp only [setStore_depsMap, hd] at h
          injection h with h2
          subst h2
          rfl
        | some deps =>
          cases hk : amapFind deps q with
          | none =>
            simp only [setStore_depsMap, hd, hk] at h
            injection h with h2
            subst h2
            rfl
          | some dep =>
            simp only [setStore_depsMap, hd, hk] at h
            obtain ⟨l1, _, _, _, _⟩ := pass_props env hro dep m (setStore s o q v) s'
              (by rw [setStore_stack]; exact hstk) (by rw [setStore_current]; exact hcur) h
            have hdep : depSetD s o q = dep := depSetD_finds s o q deps dep hd hk
            have hnotin : e ∉ dep := by
              rw [← hdep]
              exact hout
            rw [l1, setStore_log, List.count_append, passLog_count_run,
              List.count_eq_zero.mpr hnotin]
            exact Nat.add_zero _

/-- C8 witness (for the amended claim): in the read-only environment
envC8ro, effect 1 is subscribed to (0, "p") only; writing 1 to (0, "q")
runs effect 2 but never re-runs effect 1. -/
theorem claim_C8_witness :
    run envC8ro 9 (Call.op1 (Op.write 0 "q" (Value.num 1))) sC8ro = Res.ok sC8roW ∧
    sC8roW.log.count (Event.run 1) = sC8ro.log.count (Event.run 1) :=
  ⟨by decide,
   claim_C8 9 envC8ro 0 "p" "q" (Value.num 1) sC8ro sC8roW 1 (by decide) (by decide)
     (by decide) (by decide) rfl rfl (by decide)⟩

/-- C9 counterexample: the implicit frame claim "assigning to O.P leaves
the stored value of O.Q unchanged" is false on the code as universally
stated: in sC9 (reachable in the source: `createEffect` of a computation
that reads p and sets q to 5, then an external assignment q = 0), writing
1 to (0, "p") re-runs effect 1 whose computation writes 5 to (0, "q"),
so the stored value of (0, "q") changes. -/
theorem claim_C9_counterexample :
    run envC9 15 (Call.op1 (Op.write 0 "p" (Value.num 1))) sC9 = Res.ok sC9after ∧
    getStore sC9 0 "q" = Value.num 0 ∧
    getStore sC9after 0 "q" = Value.num 5 := by
  refine ⟨by decide, by decide, by decide⟩

/-- C9 amended: the frame property of an assignment to (o, p) holds for
every other coordinate the triggered effects do not themselves touch: if
the environment is purely reading (so no cascaded writes) and no effect
subscribed to (o, p) reads (o, q), then a write to (o, p) from an idle
state leaves both the stored value of (o, q) and the subscriber set of
(o, q) unchanged. -/
theorem claim_C9 (fuel : Nat) (env : Env) (o : ObjId) (p q : Key) (v : Value)
    (s s' : RState)
    (hro : ReadOnlyEnv env) (hqp : q ≠ p)
    (hnoq : ∀ e ∈ depSetD s o p, Op.read o q ∉ envComp env e)
    (hstk : s.effectsStack = []) (hcur : s.currentEffect = none)
    (h : run env fuel (Call.op1 (Op.write o p v)) s = Res.ok s') :
    getStore s' o q = getStore s o q ∧ depSetD s' o q = depSetD s o q := by
  have hne : ((o, q) : ObjId × Key) ≠ (o, p) := by
    intro hh
    injection hh with h1 h2
    exact hqp h2
  cases fuel with
  | zero =>
    rw [run_zero] at h
    simp at h
  | succ n =>
    rw [run_write] at h
    by_cases hv : v = getStore s o p
    · rw [if_pos hv] at h
      injection h with h2
      subst h2
      exact ⟨rfl, rfl⟩
    · rw [if_neg hv] at h
      cases n with
      | zero =>
        rw [run_zero] at h
        simp at h
      | succ m =>
        rw [run_trigger_eq] at h
        cases hd : amapFind s.depsMap o with
        | none =>
          simp only [setStore_depsMap, hd] at h
          injection h with h2
          subst h2
          exact ⟨getStore_setStore_ne s o p v o q hne, rfl⟩
        | some deps =>
          cases hk : amapFind deps p with
          | none =>
            simp only [setStore_depsMap, hd, hk] at h
            injection h with h2
            subst h2
            exact ⟨getStore_setStore_ne s o p v o q hne, rfl⟩
          | some dep =>
            simp only [setStore_depsMap, hd, hk] at h
            obtain ⟨_, l2, _, _, l5⟩ := pass_props env hro dep m (setStore s o p v) s'
              (by rw [setStore_stack]; exact hstk) (by rw [setStore_current]; exact hcur) h
            have hdep : depSetD s o p = dep := depSetD_finds s o p deps dep hd hk
            constructor
            · have hg : getStore s' o q = getStore (setStore s o p v) o q := by
                unfold getStore
                rw [l2]
              rw [hg]
              exact getStore_setStore_ne s o p v o q hne
            · have hdq := l5 o q (fun e he => hnoq e (hdep ▸ he))
              rw [hdq, depSetD_setStore]

/-- C9 witness (for the amended claim): writing 1 to (0, "p") in the
read-only environment envC8ro re-runs effect 1 (which only reads p) and
leaves both the stored value and the subscriber set of (0, "q")
unchanged. -/
theorem claim_C9_witness :
    run envC8ro 9 (Call.op1 (Op.write 0 "p" (Value.num 1))) sC8ro = Res.ok sC8roP ∧
    getStore sC8roP 0 "q" = getStore sC8ro 0 "q" ∧
    depSetD sC8roP 0 "q" = depSetD sC8ro 0 "q" :=
  ⟨by decide,
   (claim_C9 9 envC8ro 0 "p" "q" (Value.num 1) sC8ro sC8roP (by decide) (by decide)
     (by decide) rfl rfl (by decide)).1,
   (claim_C9 9 envC8ro 0 "p" "q" (Value.num 1) sC8ro sC8roP (by decide) (by decide)
     (by decide) rfl rfl (by decide)).2⟩

/-- C6: shape of the object returned by reactive.  For a plain object
(all own properties enumerable data properties, keys duplicate-free) and
a fresh identity: the result is a distinct object; its intercepted keys
are exactly the input's own keys at call time (and those are exactly its
own keys); each stored value is the input's value verbatim — an
object-valued property stays the same reference, i.e. no recursion into
nested objects; and a property added to the result later (by plain
assignment to an absent key) is not intercepted and does not change the
intercepted key set.  The input object itself is untouched (the embedding
is pure, so reactive cannot modify it). -/
theorem claim_C6 (obj : JSObject) (freshId : Nat)
    (hplain : PlainObject obj) (hnd : (obj.props.map Prod.fst).Nodup)
    (hid : freshId ≠ obj.id) :
    (reactive freshId obj).id ≠ obj.id ∧
    interceptedKeys (reactive freshId obj) = obj.props.map Prod.fst ∧
    (reactive freshId obj).props.map Prod.fst = obj.props.map Prod.fst ∧
    (∀ k p, (k, p) ∈ obj.props → propValue (reactive freshId obj) k = some p.value) ∧
    (∀ k v, amapFind (reactive freshId obj).props k = none →
      interceptedKeys (addProp (reactive freshId obj) k v)
        = interceptedKeys (reactive freshId obj) ∧
      amapFind (addProp (reactive freshId obj) k v).props k
        = some { value := v, enumerable := true, configurable := true,
                 intercepted := false }) := by
  have hkeys : objectKeys obj = obj.props.map Prod.fst := by
    unfold objectKeys
    rw [List.filter_eq_self.mpr (fun p hp => (hplain p hp).1)]
  have hknd : (objectKeys obj).Nodup := by
    rw [hkeys]
    exact hnd
  have hre : (reactive freshId obj).props
      = (objectKeys obj).map (fun x => (x, interceptProp obj x)) := rfl
  refine ⟨hid, ?_, ?_, ?_, ?_⟩
  · rw [interceptedKeys_reactive, hkeys]
  · rw [hre, map_fst_map_keys, hkeys]
  · intro k p hp
    have hkm : k ∈ objectKeys obj := by
      rw [hkeys]
      exact List.mem_map.mpr ⟨(k, p), hp, rfl⟩
    have hfind : amapFind obj.props k = some p := amapFind_eq_of_mem obj.props k p hp hnd
    unfold propValue
    rw [hre, amapFind_map_keys (interceptProp obj) (objectKeys obj) k hknd hkm]
    simp [interceptProp, hfind]
  · intro k v hnone
    constructor
    · unfold interceptedKeys addProp
      rw [List.filter_append]
      simp [List.filter_cons]
    · show amapFind ((reactive freshId obj).props ++ _) k = _
      rw [amapFind_append_of_none _ _ _ hnone]
      simp [amapFind]

/-- C6 witness: reactive 1 applied to the plain object with a single
property count = 0 yields a distinct object that intercepts exactly
"count" with the value copied verbatim; a property added later is not
intercepted. -/
theorem claim_C6_witness :
    (reactive 1 plainCount).id ≠ plainCount.id ∧
    interceptedKeys (reactive 1 plainCount) = ["count"] ∧
    propValue (reactive 1 plainCount) "count" = some (Value.num 0) ∧
    interceptedKeys (addProp (reactive 1 plainCount) "later" (Value.num 3))
      = interceptedKeys (reactive 1 plainCount) :=
  ⟨(claim_C6 plainCount 1 (by decide) (by decide) (by decide)).1,
   (claim_C6 plainCount 1 (by decide) (by decide) (by decide)).2.1,
   (claim_C6 plainCount 1 (by decide) (by decide) (by decide)).2.2.2.1 "count"
     ⟨Value.num 0, true, true, false⟩ (by decide),
   ((claim_C6 plainCount 1 (by decide) (by decide) (by decide)).2.2.2.2 "later"
     (Value.num 3) (by decide)).1⟩

/-- C10: the accessor properties reactive installs are defined with a
descriptor containing only get and set, so they are non-enumerable and
non-configurable; consequently Object.keys of the returned object is
empty, and applying reactive to an already-reactive object therefore
produces an object with no properties and no intercepted keys at all. -/
theorem claim_C10 (obj : JSObject) (freshId j : Nat) :
    (∀ k p, (k, p) ∈ (reactive freshId obj).props →
      p.enumerable = false ∧ p.configurable = false ∧ p.intercepted = true) ∧
    objectKeys (reactive freshId obj) = [] ∧
    (reactive j (reactive freshId obj)).props = [] ∧
    interceptedKeys (reactive j (reactive freshId obj)) = [] := by
  have hkeys := objectKeys_reactive freshId obj
  refine ⟨?_, hkeys, ?_, ?_⟩
  · intro k p hp
    have hre : (reactive freshId obj).props
        = (objectKeys obj).map (fun x => (x, interceptProp obj x)) := rfl
    rw [hre] at hp
    obtain ⟨x, hx, heq⟩ := List.mem_map.mp hp
    injection heq with h1 h2
    subst h2
    exact ⟨rfl, rfl, rfl⟩
  · show (objectKeys (reactive freshId obj)).map
        (fun x => (x, interceptProp (reactive freshId obj) x)) = []
    rw [hkeys]
    rfl
  · rw [interceptedKeys_reactive, hkeys]

/-- C10 witness: the accessor installed for "count" is non-enumerable,
non-configurable and intercepted, and reapplying reactive yields an
object with no properties. -/
theorem claim_C10_witness :
    ((interceptProp plainCount "count").enumerable = false ∧
     (interceptProp plainCount "count").configurable = false ∧
     (interceptProp plainCount "count").intercepted = true) ∧
    (reactive 2 (reactive 1 plainCount)).props = [] ∧
    interceptedKeys (reactive 2 (reactive 1 plainCount)) = [] :=
  ⟨(claim_C10 plainCount 1 2).1 "count" (interceptProp plainCount "count") (by decide),
   (claim_C10 plainCount 1 2).2.2.1,
   (claim_C10 plainCount 1 2).2.2.2⟩
